import Mathlib

/-!
Shallow embedding of `src/plugin.js` from the drone-convert-plugin-cache
repository: the cache registry (`cacheMap`), the `Plugin` class with its
environment derivation, and the document-rewriting pass (`run` /
`#docProcessor` / `#createCacheStep` / `#addStepVolumes` /
`#createCacheVolumes` / `#createCacheMounts`).

YAML parsing and serialization are external primitives; the embedding works
on the parsed document stream (`YamlDoc`) and keeps only the serialization
skeleton of `run` (the document markers), taking the per-document dumper as
an opaque argument.
-/

/-- A step-level volume mount `{name, path}`. -/
structure VolumeMount where
  name : String
  path : String
deriving DecidableEq

/-- The `settings` object of a step; a `none` field is an absent key. -/
structure StepSettings where
  mount : Option (List String) := none
  restore : Option Bool := none
  rebuild : Option Bool := none
  extra : List (String × String) := []
deriving DecidableEq

/-- A step's `caches` field: absent, present but not an array, or an array
of cache-kind strings. -/
inductive CachesField
  | absent
  | notArray (raw : String)
  | arr (kinds : List String)
deriving DecidableEq

/-- One pipeline step. `none` optional fields are absent keys; `extra` holds
the arbitrary remaining fields, preserved verbatim by the rewriter. -/
structure Step where
  name : String := ""
  caches : CachesField := .absent
  when : Option String := none
  volumes : Option (List VolumeMount) := none
  environment : Option (List (String × String)) := none
  settings : Option StepSettings := none
  image : Option String := none
  extra : List (String × String) := []
deriving DecidableEq

/-- A document-level volume: host-backed `{name, host: {path}}`, ephemeral
`{name, temp: {}}`, or any other pre-existing shape. -/
inductive Volume
  | host (name : String) (path : String)
  | temp (name : String)
  | other (raw : String)
deriving DecidableEq

/-- A document's `steps` field: absent, present but not an array, or an
array of steps. -/
inductive StepsField
  | absent
  | notArray (raw : String)
  | arr (steps : List Step)
deriving DecidableEq

/-- One mapping-shaped configuration document. -/
structure Doc where
  kind : Option String := none
  steps : StepsField := .absent
  volumes : Option (List Volume) := none
  extra : List (String × String) := []
deriving DecidableEq

/-- One parsed YAML document: `null`, a non-mapping scalar (whose property
reads give `undefined`), or a mapping. -/
inductive YamlDoc
  | null
  | scalar (s : String)
  | obj (d : Doc)
deriving DecidableEq

/-- A thrown JavaScript error — the only kind the rewriter itself can raise. -/
inductive JsError
  | typeError (msg : String)
deriving DecidableEq

/-- The `action` argument of `#createCacheStep`. -/
inductive CacheAction
  | restore
  | rebuild
deriving DecidableEq

/-- The string spliced into the generated step name and used as settings key. -/
def CacheAction.act : CacheAction → String
  | .restore => "restore"
  | .rebuild => "rebuild"

/-- The cache registry `cacheMap` (src/plugin.js), in source order. -/
def cacheMap : List (String × String) :=
  [("composer", "/root/.composer/cache"),
   ("npm", "/root/.npm"),
   ("yarn", ".yarn/cache"),
   ("dotnetcore", "/root/.nuget/packages"),
   ("gradle", "/root/.gradle/caches"),
   ("ivy2", "/root/.ivy2/cache"),
   ("maven", "/root/.m2/repository"),
   ("pip", "/root/.cache/pip"),
   ("sbt", "/root/.sbt")]

/-- `cacheMap.hasOwnProperty(k)`. -/
def cacheMapHas (k : String) : Bool :=
  cacheMap.any (fun e => e.1 == k)

/-- The JavaScript property read `cacheMap[k]`. -/
def cacheMapLookup (k : String) : Option String :=
  (cacheMap.find? (fun e => e.1 == k)).map Prod.snd

/-- The test `key.match(/^CACHE_/)`, as a computable character-level
prefix check. -/
def strStarts (s p : String) : Bool :=
  p.data.isPrefixOf s.data

/-- `key.replace(/^CACHE_/, ...)`'s removal of the matched 6-character
prefix, as a computable character-level drop. -/
def strDrop (s : String) (n : Nat) : String :=
  String.mk (s.data.drop n)

/-- `Object.assign(res, { [k]: v })`: overwrite an existing entry for `k` in
place, otherwise append a new one. -/
def objAssign (res : List (String × String)) (k v : String) :
    List (String × String) :=
  if res.any (fun e => e.1 == k) then
    res.map (fun e => if e.1 == k then (k, v) else e)
  else
    res ++ [(k, v)]

/-- `#getCacheEnv`: keep the entries whose key matches `/^CACHE_/` and fold
them into a fresh object with the prefix rewritten to `PLUGIN_`. -/
def getCacheEnv (env : List (String × String)) : List (String × String) :=
  (env.filter (fun e => strStarts e.1 "CACHE_")).foldl
    (fun res e => objAssign res ("PLUGIN_" ++ strDrop e.1 6) e.2) []

/-- A JavaScript property read on an environment object. -/
def envGet (env : List (String × String)) (k : String) : Option String :=
  (env.find? (fun e => e.1 == k)).map Prod.snd

/-- The `Plugin` instance state: `#image`, `#cachePath`, `#cacheEnv`. -/
structure Plugin where
  image : String
  cachePath : String
  cacheEnv : List (String × String)
deriving DecidableEq

/-- The `Plugin` constructor: store image and cache path, derive `#cacheEnv`
from the process environment once. -/
def Plugin.construct (image cachePath : String)
    (env : List (String × String)) : Plugin :=
  ⟨image, cachePath, getCacheEnv env⟩

/-- `#createCacheMounts`: `{name, path}` mounts for the used caches whose
registry path is rooted (`path.charAt(0) === '/'`). -/
def createCacheMounts (caches : List String) : List VolumeMount :=
  (cacheMap.filter (fun e => caches.contains e.1 && e.2.front == '/')).map
    (fun e => ⟨e.1, e.2⟩)

/-- `#createCacheVolumes`: `{name, temp: {}}` document volumes for the used
caches whose registry path is rooted. -/
def createCacheVolumes (caches : List String) : List Volume :=
  (cacheMap.filter (fun e => caches.contains e.1 && e.2.front == '/')).map
    (fun e => .temp e.1)

/-- `#createCacheStep`: build one generated restore/rebuild step. The
`settings.mount` list filters the registry's own ordered entries by
membership in `caches`; `settings[action]` is set to `true` afterwards. -/
def createCacheStep (p : Plugin) (stepName : String) (whenField : Option String)
    (action : CacheAction) (caches : List String) : Step :=
  let environment := p.cacheEnv
  { name := stepName ++ "-cache-" ++ action.act
    image := some p.image
    environment := some environment
    settings := some
      { mount := some ((cacheMap.filter (fun e => caches.contains e.1)).map Prod.snd)
        restore := if action == .restore then some true else none
        rebuild := if action == .rebuild then some true else none }
    volumes := some [⟨"cache",
      (envGet environment "PLUGIN_FILESYSTEM_CACHE_ROOT").getD "/tmp/cache"⟩]
    when := whenField }

/-- `#addStepVolumes`: append the rooted-cache mounts to the step's
(possibly absent) `volumes` list. -/
def addStepVolumes (step : Step) (caches : List String) : Step :=
  { step with volumes := some (step.volumes.getD [] ++ createCacheMounts caches) }

/-- `Set.prototype.add`: JavaScript sets keep insertion order and ignore
repeated elements. -/
def setAdd (s : List String) (x : String) : List String :=
  if s.contains x then s else s ++ [x]

/-- `new Set(l)`. -/
def newSet (l : List String) : List String :=
  l.foldl setAdd []

/-- The deduplicated supported cache kinds of a step
(`new Set(step.caches.filter(cacheMap.hasOwnProperty, cacheMap))`), empty
when `caches` is absent or not an array. -/
def stepCacheSet (step : Step) : List String :=
  match step.caches with
  | .arr kinds => newSet (kinds.filter cacheMapHas)
  | _ => []

/-- One pass of the `doc.steps.flatMap` callback in `#docProcessor`, with
the emitted steps accumulated on the left and the mutable `cachesUsed` set
threaded on the right. -/
def flatMapStep (p : Plugin) (acc : List Step × List String) (step : Step) :
    List Step × List String :=
  match step.caches with
  | .absent => (acc.1 ++ [step], acc.2)
  | .notArray _ => (acc.1 ++ [step], acc.2)
  | .arr kinds =>
    let stepCaches := newSet (kinds.filter cacheMapHas)
    if stepCaches.isEmpty then (acc.1 ++ [step], acc.2)
    else
      let cachesUsed := stepCaches.foldl setAdd acc.2
      let restoreStep := createCacheStep p step.name step.when .restore stepCaches
      let rebuildStep := createCacheStep p step.name step.when .rebuild stepCaches
      (acc.1 ++ [addStepVolumes restoreStep stepCaches,
                 addStepVolumes step stepCaches,
                 addStepVolumes rebuildStep stepCaches],
       cachesUsed)

/-- The per-step value of the `flatMap` callback (which does not depend on
the `cachesUsed` state): a non-eligible step passes through unchanged and an
eligible one becomes the restore / original-with-mounts / rebuild triple. -/
def stepExpansion (p : Plugin) (step : Step) : List Step :=
  let sc := stepCacheSet step
  if sc.isEmpty then [step]
  else
    [addStepVolumes (createCacheStep p step.name step.when .restore sc) sc,
     addStepVolumes step sc,
     addStepVolumes (createCacheStep p step.name step.when .rebuild sc) sc]

/-- `#docProcessor` on one mapping document (the deep clone is the identity
in this value semantics). -/
def docProcessorObj (p : Plugin) (doc : Doc) : Except JsError Doc :=
  if doc.kind ≠ some "pipeline" ∨ doc.steps = StepsField.absent then
    .ok doc
  else
    match doc.steps with
    | .absent => .ok doc
    | .notArray _ => .error (.typeError "doc.steps.flatMap is not a function")
    | .arr steps =>
      let folded := steps.foldl (flatMapStep p) ([], [])
      let doc1 : Doc := { doc with steps := .arr folded.1 }
      if folded.2.length > 0 then
        .ok { doc1 with
                volumes := some (doc1.volumes.getD [] ++
                  [Volume.host "cache" p.cachePath] ++
                  createCacheVolumes folded.2) }
      else
        .ok doc1

/-- `#docProcessor` on one parsed document: reading `kind` of `null` throws
a `TypeError`; a scalar's `kind` is `undefined`, so it passes through. -/
def docProcessor (p : Plugin) : YamlDoc → Except JsError YamlDoc
  | .null => .error (.typeError "Cannot read properties of null (reading kind)")
  | .scalar s => .ok (.scalar s)
  | .obj d => (docProcessorObj p d).map YamlDoc.obj

/-- `run`, at the level of the parsed document stream: process the documents
in order, propagating the first thrown error. -/
def runDocs (p : Plugin) (docs : List YamlDoc) : Except JsError (List YamlDoc) :=
  docs.mapM (docProcessor p)

/-- The serialization skeleton of `run`: a leading `---` marker, then the
dumped documents joined by markers. -/
def serializeStream (dumped : List String) : String :=
  "---\n" ++ String.intercalate "\n---\n" dumped

/-- `run`: process every parsed document, then re-serialize through the
external `yamlDump` primitive. -/
def run (p : Plugin) (yamlDump : YamlDoc → String) (docs : List YamlDoc) :
    Except JsError String :=
  (runDocs p docs).map (fun ds => serializeStream (ds.map yamlDump))

/-! ### Set embedding lemmas -/

theorem list_contains_iff {l : List String} {x : String} :
    l.contains x = true ↔ x ∈ l :=
  List.elem_iff

theorem mem_setAdd {s : List String} {x y : String} :
    y ∈ setAdd s x ↔ y ∈ s ∨ y = x := by
  unfold setAdd
  by_cases h : s.contains x = true
  · rw [if_pos h]
    have hx : x ∈ s := list_contains_iff.mp h
    constructor
    · exact Or.inl
    · rintro (hy | rfl)
      · exact hy
      · exact hx
  · rw [if_neg h]
    simp [List.mem_append]

theorem nodup_setAdd {s : List String} {x : String} (h : s.Nodup) :
    (setAdd s x).Nodup := by
  unfold setAdd
  by_cases hc : s.contains x = true
  · rwa [if_pos hc]
  · rw [if_neg hc]
    have hx : x ∉ s := fun hmem => hc (list_contains_iff.mpr hmem)
    rw [List.nodup_append]
    exact ⟨h, List.nodup_singleton x, by
      intro a ha hax
      rw [List.mem_singleton] at hax
      exact hx (hax ▸ ha)⟩

theorem mem_foldl_setAdd :
    ∀ (l acc : List String) (x : String),
      x ∈ l.foldl setAdd acc ↔ x ∈ acc ∨ x ∈ l := by
  intro l
  induction l with
  | nil => simp
  | cons a l ih =>
    intro acc x
    rw [List.foldl_cons, ih, mem_setAdd, List.mem_cons]
    tauto

theorem nodup_foldl_setAdd :
    ∀ (l acc : List String), acc.Nodup → (l.foldl setAdd acc).Nodup := by
  intro l
  induction l with
  | nil => intro acc h; simpa using h
  | cons a l ih =>
    intro acc h
    rw [List.foldl_cons]
    exact ih _ (nodup_setAdd h)

theorem mem_newSet {l : List String} {x : String} :
    x ∈ newSet l ↔ x ∈ l := by
  simpa using mem_foldl_setAdd l [] x

theorem nodup_newSet (l : List String) : (newSet l).Nodup :=
  nodup_foldl_setAdd l [] List.nodup_nil

/-! ### Registry lemmas -/

theorem cacheMap_keys_nodup : (cacheMap.map Prod.fst).Nodup := by decide

theorem cacheMap_paths_nodup : (cacheMap.map Prod.snd).Nodup := by decide

theorem cacheMapLookup_of_mem : ∀ e ∈ cacheMap, cacheMapLookup e.1 = some e.2 := by decide

theorem mem_of_cacheMapLookup {k pa : String} (h : cacheMapLookup k = some pa) :
    (k, pa) ∈ cacheMap := by
  unfold cacheMapLookup at h
  cases hf : cacheMap.find? (fun e => e.1 == k) with
  | none => rw [hf] at h; simp at h
  | some e =>
    rw [hf] at h
    have h2 : e.2 = pa := by simpa using h
    have hm := List.mem_of_find?_eq_some hf
    have hp : e.1 = k := by simpa using List.find?_some hf
    obtain ⟨k0, p0⟩ := e
    cases hp
    cases h2
    exact hm

/-! ### The step expansion and the document transform -/

theorem flatMapStep_eq (p : Plugin) (acc : List Step × List String) (step : Step) :
    flatMapStep p acc step =
      (acc.1 ++ stepExpansion p step, (stepCacheSet step).foldl setAdd acc.2) := by
  obtain ⟨n, c, w, v, env, st, im, ex⟩ := step
  cases c with
  | absent => simp [flatMapStep, stepExpansion, stepCacheSet]
  | notArray raw => simp [flatMapStep, stepExpansion, stepCacheSet]
  | arr kinds =>
    by_cases he : (newSet (kinds.filter cacheMapHas)).isEmpty = true
    · have hnil : newSet (kinds.filter cacheMapHas) = [] := List.isEmpty_iff.mp he
      simp [flatMapStep, stepExpansion, stepCacheSet, he, hnil]
    · simp [flatMapStep, stepExpansion, stepCacheSet, he]

theorem foldl_flatMapStep (p : Plugin) :
    ∀ (steps : List Step) (acc : List Step × List String),
      steps.foldl (flatMapStep p) acc =
        (acc.1 ++ steps.flatMap (stepExpansion p),
         steps.foldl (fun u s => (stepCacheSet s).foldl setAdd u) acc.2) := by
  intro steps
  induction steps with
  | nil => intro acc; simp
  | cons s rest ih =>
    intro acc
    rw [List.foldl_cons, flatMapStep_eq, ih]
    simp [List.flatMap_cons, List.append_assoc]

/-- The final value of the `cachesUsed` set of `#docProcessor`. -/
def usedCaches (steps : List Step) : List String :=
  steps.foldl (fun u s => (stepCacheSet s).foldl setAdd u) []

theorem mem_usedFold :
    ∀ (steps : List Step) (acc : List String) (x : String),
      x ∈ steps.foldl (fun u s => (stepCacheSet s).foldl setAdd u) acc ↔
        x ∈ acc ∨ ∃ s ∈ steps, x ∈ stepCacheSet s := by
  intro steps
  induction steps with
  | nil => simp
  | cons s rest ih =>
    intro acc x
    rw [List.foldl_cons, ih, mem_foldl_setAdd]
    constructor
    · rintro ((h | h) | ⟨s1, hs1, hx⟩)
      · exact Or.inl h
      · exact Or.inr ⟨s, List.mem_cons_self s rest, h⟩
      · exact Or.inr ⟨s1, List.mem_cons_of_mem s hs1, hx⟩
    · rintro (h | ⟨s1, hs1, hx⟩)
      · exact Or.inl (Or.inl h)
      · rcases List.mem_cons.mp hs1 with rfl | hs1
        · exact Or.inl (Or.inr hx)
        · exact Or.inr ⟨s1, hs1, hx⟩

theorem mem_usedCaches {steps : List Step} {x : String} :
    x ∈ usedCaches steps ↔ ∃ s ∈ steps, x ∈ stepCacheSet s := by
  rw [usedCaches, mem_usedFold]
  simp

theorem nodup_usedCaches (steps : List Step) : (usedCaches steps).Nodup := by
  rw [usedCaches]
  generalize hacc : ([] : List String) = acc
  have hnd : acc.Nodup := hacc ▸ List.nodup_nil
  clear hacc
  induction steps generalizing acc with
  | nil => simpa using hnd
  | cons s rest ih =>
    rw [List.foldl_cons]
    exact ih _ (nodup_foldl_setAdd _ _ hnd)

/-- `#docProcessor` on a pipeline document whose `steps` field is an array:
the steps become the flattened per-step expansions, and the document volumes
are extended exactly when some cache was used. -/
theorem docProcessorObj_arr (p : Plugin) (doc : Doc) (steps : List Step)
    (hk : doc.kind = some "pipeline") (hs : doc.steps = StepsField.arr steps) :
    docProcessorObj p doc =
      .ok (if (usedCaches steps).length > 0 then
             { doc with
                 steps := .arr (steps.flatMap (stepExpansion p)),
                 volumes := some (doc.volumes.getD [] ++
                   [Volume.host "cache" p.cachePath] ++
                   createCacheVolumes (usedCaches steps)) }
           else
             { doc with steps := .arr (steps.flatMap (stepExpansion p)) }) := by
  obtain ⟨k0, st0, v0, ex0⟩ := doc
  simp only at hk hs
  subst hk
  subst hs
  rw [docProcessorObj, if_neg (by simp)]
  simp only [foldl_flatMapStep, usedCaches, List.nil_append]
  by_cases hc :
      (List.foldl (fun u s => List.foldl setAdd u (stepCacheSet s)) [] steps).length > 0
  · rw [if_pos hc, if_pos hc]
  · rw [if_neg hc, if_neg hc]

/-! ### Mounts, volumes and expansion shapes -/

theorem mem_createCacheMounts {caches : List String} {vm : VolumeMount} :
    vm ∈ createCacheMounts caches ↔
      (vm.name, vm.path) ∈ cacheMap ∧ vm.name ∈ caches ∧ vm.path.front = '/' := by
  unfold createCacheMounts
  simp only [List.mem_map, List.mem_filter, Bool.and_eq_true, beq_iff_eq]
  constructor
  · rintro ⟨e, ⟨hmem, hc, hf⟩, rfl⟩
    exact ⟨hmem, list_contains_iff.mp hc, hf⟩
  · rintro ⟨hmem, hc, hf⟩
    exact ⟨(vm.name, vm.path), ⟨hmem, ⟨list_contains_iff.mpr hc, hf⟩⟩, by cases vm; rfl⟩

theorem mem_createCacheVolumes {caches : List String} {v : Volume} :
    v ∈ createCacheVolumes caches ↔
      ∃ k pa, v = Volume.temp k ∧ (k, pa) ∈ cacheMap ∧ k ∈ caches ∧ pa.front = '/' := by
  unfold createCacheVolumes
  simp only [List.mem_map, List.mem_filter, Bool.and_eq_true, beq_iff_eq]
  constructor
  · rintro ⟨e, ⟨hmem, hc, hf⟩, rfl⟩
    exact ⟨e.1, e.2, rfl, hmem, list_contains_iff.mp hc, hf⟩
  · rintro ⟨k, pa, rfl, hmem, hc, hf⟩
    exact ⟨(k, pa), ⟨hmem, ⟨list_contains_iff.mpr hc, hf⟩⟩, rfl⟩

theorem nodup_createCacheVolumes (caches : List String) :
    (createCacheVolumes caches).Nodup := by
  unfold createCacheVolumes
  have h1 : ((cacheMap.filter
      (fun e => caches.contains e.1 && e.2.front == '/')).map Prod.fst).Nodup :=
    (List.Sublist.map Prod.fst (List.filter_sublist cacheMap)).nodup cacheMap_keys_nodup
  have h2 : (fun (e : String × String) => Volume.temp e.1) =
      Volume.temp ∘ Prod.fst := rfl
  rw [h2, ← List.map_map]
  exact List.Nodup.map (fun a b h => by injection h) h1

theorem stepCacheSet_ne_nil_iff {step : Step} :
    stepCacheSet step ≠ [] ↔
      ∃ kinds, step.caches = CachesField.arr kinds ∧
        ∃ k ∈ kinds, cacheMapHas k = true := by
  obtain ⟨n, c, w, v, env, st, im, ex⟩ := step
  cases c with
  | absent => simp [stepCacheSet]
  | notArray raw => simp [stepCacheSet]
  | arr kinds =>
    simp only [stepCacheSet]
    constructor
    · intro h
      rcases List.exists_mem_of_ne_nil _ h with ⟨x, hx⟩
      rw [mem_newSet, List.mem_filter] at hx
      exact ⟨kinds, rfl, x, hx.1, hx.2⟩
    · rintro ⟨kinds1, heq, k, hk, hh⟩
      injection heq with heq1
      subst heq1
      intro hnil
      have hmem : k ∈ newSet (kinds.filter cacheMapHas) :=
        mem_newSet.mpr (List.mem_filter.mpr ⟨hk, hh⟩)
      rw [hnil] at hmem
      exact absurd hmem (List.not_mem_nil k)

theorem stepExpansion_of_nil {p : Plugin} {step : Step}
    (h : stepCacheSet step = []) : stepExpansion p step = [step] := by
  simp [stepExpansion, h]

theorem stepExpansion_of_ne_nil {p : Plugin} {step : Step}
    (h : stepCacheSet step ≠ []) :
    stepExpansion p step =
      [addStepVolumes
         (createCacheStep p step.name step.when .restore (stepCacheSet step))
         (stepCacheSet step),
       addStepVolumes step (stepCacheSet step),
       addStepVolumes
         (createCacheStep p step.name step.when .rebuild (stepCacheSet step))
         (stepCacheSet step)] := by
  simp [stepExpansion, List.isEmpty_iff, h]

theorem usedCaches_length_pos_iff {steps : List Step} :
    (usedCaches steps).length > 0 ↔ ∃ s ∈ steps, stepCacheSet s ≠ [] := by
  rw [gt_iff_lt, List.length_pos]
  constructor
  · intro h
    rcases List.exists_mem_of_ne_nil _ h with ⟨x, hx⟩
    rcases mem_usedCaches.mp hx with ⟨s, hsm, hxs⟩
    refine ⟨s, hsm, fun hnil => ?_⟩
    rw [hnil] at hxs
    exact absurd hxs (List.not_mem_nil x)
  · rintro ⟨s, hsm, hne⟩
    rcases List.exists_mem_of_ne_nil _ hne with ⟨x, hx⟩
    intro hnil
    have hmem := mem_usedCaches.mpr ⟨s, hsm, hx⟩
    rw [hnil] at hmem
    exact absurd hmem (List.not_mem_nil x)

/-! ### Shared concrete examples (the repository's own test scenario) -/

/-- The plugin of the test suite: image `foo`, cache path `/tmp/cache`,
empty environment. -/
def examplePlugin : Plugin := Plugin.construct "foo" "/tmp/cache" []

/-- A step requesting the `npm` cache. -/
def npmStep : Step := { name := "build", caches := .arr ["npm"] }

/-- A pipeline document with the `npm` step. -/
def npmDoc : Doc := { kind := some "pipeline", steps := .arr [npmStep] }

/-- A step requesting the non-rooted `yarn` cache. -/
def yarnStep : Step := { name := "build", caches := .arr ["yarn"] }

/-- A pipeline document with the `yarn` step. -/
def yarnDoc : Doc := { kind := some "pipeline", steps := .arr [yarnStep] }

/-! ### Claims -/

/-- C1: in a pipeline document with a steps array, the rewritten step list
is the in-order flattening of per-step expansions; a cache-eligible step
(`caches` is an array naming at least one registry kind) expands to exactly
the three steps restore, original-with-mounts, rebuild, in that order, where
the restore step has `settings.restore == true` and no rebuild flag and the
rebuild step has `settings.rebuild == true` and no restore flag; every
non-eligible step expands to itself alone, so all other steps and the
relative order of steps are unchanged. -/
theorem c1_triple_expansion (p : Plugin) (doc : Doc) (steps : List Step)
    (hk : doc.kind = some "pipeline") (hs : doc.steps = StepsField.arr steps) :
    ∃ out : Doc, docProcessorObj p doc = .ok out ∧
      out.steps = .arr (steps.flatMap (stepExpansion p)) ∧
      ∀ step ∈ steps,
        (stepCacheSet step ≠ [] ↔
          ∃ kinds, step.caches = CachesField.arr kinds ∧
            ∃ k ∈ kinds, cacheMapHas k = true) ∧
        (stepCacheSet step = [] → stepExpansion p step = [step]) ∧
        (stepCacheSet step ≠ [] →
          ∃ restoreStep rebuildStep,
            stepExpansion p step =
              [restoreStep, addStepVolumes step (stepCacheSet step), rebuildStep] ∧
            (∃ st, restoreStep.settings = some st ∧
              st.restore = some true ∧ st.rebuild = none) ∧
            (∃ st, rebuildStep.settings = some st ∧
              st.rebuild = some true ∧ st.restore = none)) := by
  rw [docProcessorObj_arr p doc steps hk hs]
  refine ⟨_, rfl, ?_, ?_⟩
  · by_cases hc : (usedCaches steps).length > 0
    · rw [if_pos hc]
    · rw [if_neg hc]
  · intro step _
    refine ⟨stepCacheSet_ne_nil_iff, stepExpansion_of_nil, ?_⟩
    intro hne
    exact ⟨_, _, stepExpansion_of_ne_nil hne,
      ⟨_, rfl, rfl, rfl⟩, ⟨_, rfl, rfl, rfl⟩⟩

/-- Witness for C1: the repository's own test scenario (an `npm` step in a
pipeline document). -/
theorem c1_witness :
    ∃ out : Doc, docProcessorObj examplePlugin npmDoc = .ok out ∧
      out.steps = .arr ([npmStep].flatMap (stepExpansion examplePlugin)) ∧
      ∀ step ∈ [npmStep],
        (stepCacheSet step ≠ [] ↔
          ∃ kinds, step.caches = CachesField.arr kinds ∧
            ∃ k ∈ kinds, cacheMapHas k = true) ∧
        (stepCacheSet step = [] → stepExpansion examplePlugin step = [step]) ∧
        (stepCacheSet step ≠ [] →
          ∃ restoreStep rebuildStep,
            stepExpansion examplePlugin step =
              [restoreStep, addStepVolumes step (stepCacheSet step), rebuildStep] ∧
            (∃ st, restoreStep.settings = some st ∧
              st.restore = some true ∧ st.rebuild = none) ∧
            (∃ st, rebuildStep.settings = some st ∧
              st.rebuild = some true ∧ st.restore = none)) :=
  c1_triple_expansion examplePlugin npmDoc [npmStep] rfl rfl

/-- C2: in a pipeline document with a steps array, when no step is
cache-eligible the document-level volumes are untouched; when at least one
step is cache-eligible the volumes list becomes the original entries, then
exactly one host-backed `cache` volume at the configured cache path, then a
duplicate-free list of ephemeral volumes holding exactly one `{name, temp}`
entry per distinct rooted cache kind used by any step of the document. -/
theorem c2_document_volumes (p : Plugin) (doc : Doc) (steps : List Step)
    (hk : doc.kind = some "pipeline") (hs : doc.steps = StepsField.arr steps) :
    ∃ out : Doc, docProcessorObj p doc = .ok out ∧
      ((∀ s ∈ steps, stepCacheSet s = []) → out.volumes = doc.volumes) ∧
      ((∃ s ∈ steps, stepCacheSet s ≠ []) →
        ∃ temps : List Volume,
          out.volumes = some (doc.volumes.getD [] ++
            [Volume.host "cache" p.cachePath] ++ temps) ∧
          temps.Nodup ∧
          ∀ v, v ∈ temps ↔ ∃ k pa, v = Volume.temp k ∧
            cacheMapLookup k = some pa ∧ pa.front = '/' ∧
            ∃ s ∈ steps, k ∈ stepCacheSet s) := by
  rw [docProcessorObj_arr p doc steps hk hs]
  by_cases hc : (usedCaches steps).length > 0
  · rw [if_pos hc]
    refine ⟨_, rfl, ?_, ?_⟩
    · intro hall
      exfalso
      rcases usedCaches_length_pos_iff.mp hc with ⟨s, hsm, hne⟩
      exact hne (hall s hsm)
    · intro _
      refine ⟨createCacheVolumes (usedCaches steps), rfl,
        nodup_createCacheVolumes _, ?_⟩
      intro v
      rw [mem_createCacheVolumes]
      constructor
      · rintro ⟨k, pa, rfl, hmem, hused, hf⟩
        exact ⟨k, pa, rfl, cacheMapLookup_of_mem (k, pa) hmem, hf,
          mem_usedCaches.mp hused⟩
      · rintro ⟨k, pa, rfl, hlk, hf, hs1⟩
        exact ⟨k, pa, rfl, mem_of_cacheMapLookup hlk,
          mem_usedCaches.mpr hs1, hf⟩
  · rw [if_neg hc]
    refine ⟨_, rfl, fun _ => rfl, ?_⟩
    intro hex
    exact absurd (usedCaches_length_pos_iff.mpr hex) hc

/-- A pipeline document whose two steps both use the `npm` cache. -/
def twoNpmDoc : Doc := { kind := some "pipeline", steps := .arr [npmStep, npmStep] }

/-- Witness for C2 at a document whose two steps both use the `npm` cache
(the temp volume is still appended only once). -/
theorem c2_witness :
    ∃ out : Doc, docProcessorObj examplePlugin twoNpmDoc = .ok out ∧
      ((∀ s ∈ [npmStep, npmStep], stepCacheSet s = []) →
        out.volumes = twoNpmDoc.volumes) ∧
      ((∃ s ∈ [npmStep, npmStep], stepCacheSet s ≠ []) →
        ∃ temps : List Volume,
          out.volumes = some (twoNpmDoc.volumes.getD [] ++
            [Volume.host "cache" examplePlugin.cachePath] ++ temps) ∧
          temps.Nodup ∧
          ∀ v, v ∈ temps ↔ ∃ k pa, v = Volume.temp k ∧
            cacheMapLookup k = some pa ∧ pa.front = '/' ∧
            ∃ s ∈ [npmStep, npmStep], k ∈ stepCacheSet s) :=
  c2_document_volumes examplePlugin twoNpmDoc [npmStep, npmStep] rfl rfl

/-! ### Non-rooted kinds (lemmas for C3) -/

/-- The steps of a `steps` field, empty when the field is not an array. -/
def stepsOf : StepsField → List Step
  | .arr l => l
  | _ => []

theorem not_temp_mem_createCacheVolumes {k pa : String} {caches : List String}
    (hk : cacheMapLookup k = some pa) (hnr : pa.front ≠ '/') :
    Volume.temp k ∉ createCacheVolumes caches := by
  intro hmem
  rcases mem_createCacheVolumes.mp hmem with ⟨k1, pa1, heq, hm1, _, hf1⟩
  injection heq with hkk
  subst hkk
  have hlk : cacheMapLookup k = some pa1 := cacheMapLookup_of_mem (k, pa1) hm1
  rw [hk] at hlk
  injection hlk with hpp
  rw [← hpp] at hf1
  exact hnr hf1

theorem createCacheMounts_name_ne {k pa : String} {caches : List String}
    (hk : cacheMapLookup k = some pa) (hnr : pa.front ≠ '/')
    {vm : VolumeMount} (hvm : vm ∈ createCacheMounts caches) : vm.name ≠ k := by
  intro hname
  rcases mem_createCacheMounts.mp hvm with ⟨hm1, _, hf1⟩
  have hlk : cacheMapLookup vm.name = some vm.path :=
    cacheMapLookup_of_mem (vm.name, vm.path) hm1
  rw [hname, hk] at hlk
  injection hlk with hpp
  rw [← hpp] at hf1
  exact hnr hf1

theorem lookup_k_ne_cache {k pa : String} (hk : cacheMapLookup k = some pa) :
    k ≠ "cache" := by
  intro h
  subst h
  rw [show cacheMapLookup "cache" = none from rfl] at hk
  exact Option.noConfusion hk

theorem docProcessorObj_passthrough (p : Plugin) (doc : Doc)
    (h : doc.kind ≠ some "pipeline" ∨ doc.steps = StepsField.absent) :
    docProcessorObj p doc = .ok doc := by
  rw [docProcessorObj, if_pos h]

theorem docProcessorObj_notArray (p : Plugin) (doc : Doc) (raw : String)
    (hk : doc.kind = some "pipeline") (hs : doc.steps = StepsField.notArray raw) :
    docProcessorObj p doc =
      .error (.typeError "doc.steps.flatMap is not a function") := by
  obtain ⟨k0, st0, v0, ex0⟩ := doc
  simp only at hk hs
  subst hk
  subst hs
  rw [docProcessorObj, if_neg (by simp)]

theorem all_nil_of_not_pos {steps : List Step}
    (hc : ¬ (usedCaches steps).length > 0) : ∀ s ∈ steps, stepCacheSet s = [] := by
  intro s hs
  by_contra hne
  exact hc (usedCaches_length_pos_iff.mpr ⟨s, hs, hne⟩)

/-- The restore step the rewrite generates for the `yarn` document. -/
def yarnRestoreStep : Step :=
  { name := "build-cache-restore"
    image := some "foo"
    environment := some []
    settings := some { mount := some [".yarn/cache"], restore := some true }
    volumes := some [⟨"cache", "/tmp/cache"⟩]
    when := none }

/-- The rebuild step the rewrite generates for the `yarn` document. -/
def yarnRebuildStep : Step :=
  { name := "build-cache-rebuild"
    image := some "foo"
    environment := some []
    settings := some { mount := some [".yarn/cache"], rebuild := some true }
    volumes := some [⟨"cache", "/tmp/cache"⟩]
    when := none }

/-- The rewritten `yarn` document. -/
def yarnOutDoc : Doc :=
  { kind := some "pipeline"
    steps := .arr [yarnRestoreStep, { yarnStep with volumes := some [] }, yarnRebuildStep]
    volumes := some [Volume.host "cache" "/tmp/cache"] }

/-- C3 counterexample: processing a pipeline whose only step requests the
non-rooted `yarn` cache yields a generated restore step whose
`settings.mount` contains the yarn registry path `.yarn/cache` — so a
non-rooted kind does produce an entry in a generated step's
`settings.mount`, contrary to the claim. -/
theorem c3_counterexample :
    docProcessorObj examplePlugin yarnDoc = .ok yarnOutDoc ∧
    ∃ st, yarnRestoreStep.settings = some st ∧
      ".yarn/cache" ∈ st.mount.getD [] := by
  refine ⟨rfl, ?_⟩
  exact ⟨_, rfl, by decide⟩

/-- C3 (amended): a cache kind whose registry path is not rooted never
produces a document-level ephemeral volume and never produces a volume
mount entry named after it in any step's volumes list (any such entry in
the output was already present on an input step); its registry path does,
however, appear in generated steps' `settings.mount`. -/
theorem c3_amended_thm (p : Plugin) (doc out : Doc) (k pa : String)
    (hk : cacheMapLookup k = some pa) (hnr : pa.front ≠ '/')
    (h : docProcessorObj p doc = .ok out) :
    (Volume.temp k ∈ out.volumes.getD [] → Volume.temp k ∈ doc.volumes.getD []) ∧
    ∀ s ∈ stepsOf out.steps, ∀ vm ∈ s.volumes.getD [],
      vm.name = k → ∃ s0 ∈ stepsOf doc.steps, vm ∈ s0.volumes.getD [] := by
  by_cases hcond : doc.kind ≠ some "pipeline" ∨ doc.steps = StepsField.absent
  · rw [docProcessorObj_passthrough p doc hcond] at h
    injection h with hout
    subst hout
    exact ⟨id, fun s hs vm hvm _ => ⟨s, hs, hvm⟩⟩
  · push_neg at hcond
    obtain ⟨hkind, hnabs⟩ := hcond
    cases hsteps : doc.steps with
    | absent => exact absurd hsteps hnabs
    | notArray raw =>
      rw [docProcessorObj_notArray p doc raw hkind hsteps] at h
      exact absurd h (by simp)
    | arr steps =>
      rw [docProcessorObj_arr p doc steps hkind hsteps] at h
      injection h with hout
      by_cases hc : (usedCaches steps).length > 0
      · rw [if_pos hc] at hout
        subst hout
        constructor
        · intro hmem
          have hmem1 : Volume.temp k ∈ doc.volumes.getD [] ++
              [Volume.host "cache" p.cachePath] ++
              createCacheVolumes (usedCaches steps) := hmem
          rcases List.mem_append.mp hmem1 with h1 | h2
          · rcases List.mem_append.mp h1 with h3 | h4
            · exact h3
            · rw [List.mem_singleton] at h4
              exact absurd h4 (by simp)
          · exact absurd h2 (not_temp_mem_createCacheVolumes hk hnr)
        · intro s hs vm hvm hname
          have hs1 : s ∈ steps.flatMap (stepExpansion p) := hs
          rcases List.mem_flatMap.mp hs1 with ⟨s0, hs0, hexp⟩
          by_cases hsc : stepCacheSet s0 = []
          · rw [stepExpansion_of_nil hsc] at hexp
            rw [List.mem_singleton] at hexp
            subst hexp
            exact ⟨_, hs0, hvm⟩
          · rw [stepExpansion_of_ne_nil hsc] at hexp
            rw [List.mem_cons, List.mem_cons, List.mem_singleton] at hexp
            rcases hexp with rfl | rfl | rfl
            ·
              have hvm1 : vm ∈
                  (createCacheStep p s0.name s0.when .restore
                    (stepCacheSet s0)).volumes.getD [] ++
                  createCacheMounts (stepCacheSet s0) := hvm
              rcases List.mem_append.mp hvm1 with h3 | h4
              · have h5 := List.mem_singleton.mp h3
                rw [h5] at hname
                exact absurd hname.symm (lookup_k_ne_cache hk)
              · exact absurd hname (createCacheMounts_name_ne hk hnr h4)
            · have hvm1 : vm ∈ s0.volumes.getD [] ++
                  createCacheMounts (stepCacheSet s0) := hvm
              rcases List.mem_append.mp hvm1 with h3 | h4
              · exact ⟨s0, hs0, h3⟩
              · exact absurd hname (createCacheMounts_name_ne hk hnr h4)
            · have hvm1 : vm ∈
                  (createCacheStep p s0.name s0.when .rebuild
                    (stepCacheSet s0)).volumes.getD [] ++
                  createCacheMounts (stepCacheSet s0) := hvm
              rcases List.mem_append.mp hvm1 with h3 | h4
              · have h5 := List.mem_singleton.mp h3
                rw [h5] at hname
                exact absurd hname.symm (lookup_k_ne_cache hk)
              · exact absurd hname (createCacheMounts_name_ne hk hnr h4)
      · rw [if_neg hc] at hout
        subst hout
        constructor
        · exact id
        · intro s hs vm hvm hname
          have hall := all_nil_of_not_pos hc
          have hs1 : s ∈ steps.flatMap (stepExpansion p) := hs
          rcases List.mem_flatMap.mp hs1 with ⟨s0, hs0, hexp⟩
          rw [stepExpansion_of_nil (hall s0 hs0)] at hexp
          rw [List.mem_singleton] at hexp
          subst hexp
          exact ⟨_, hs0, hvm⟩

/-- Witness for the amended C3 at the concrete `yarn` pipeline. -/
theorem c3_witness :
    (Volume.temp "yarn" ∈ yarnOutDoc.volumes.getD [] →
      Volume.temp "yarn" ∈ yarnDoc.volumes.getD []) ∧
    ∀ s ∈ stepsOf yarnOutDoc.steps, ∀ vm ∈ s.volumes.getD [],
      vm.name = "yarn" →
        ∃ s0 ∈ stepsOf yarnDoc.steps, vm ∈ s0.volumes.getD [] :=
  c3_amended_thm examplePlugin yarnDoc yarnOutDoc "yarn" ".yarn/cache"
    rfl (by decide) rfl

/-- C4: the `settings.mount` of a generated restore or rebuild step built
from a step's deduplicated supported cache set is a duplicate-free
subsequence of the registry's own ordered path column (hence ordered by
Cache Registry iteration order, not by the order of the step's `caches`
list) containing exactly the registry paths of the kinds in that set. -/
theorem c4_mount_registry_order (p : Plugin) (s : Step) (action : CacheAction) :
    ∃ st, (createCacheStep p s.name s.when action (stepCacheSet s)).settings
        = some st ∧
      ∃ m, st.mount = some m ∧
        m.Sublist (cacheMap.map Prod.snd) ∧ m.Nodup ∧
        ∀ pa, pa ∈ m ↔ ∃ k ∈ stepCacheSet s, cacheMapLookup k = some pa := by
  refine ⟨_, rfl, _, rfl, ?_, ?_, ?_⟩
  · exact List.Sublist.map Prod.snd (List.filter_sublist cacheMap)
  · exact (List.Sublist.map Prod.snd
      (List.filter_sublist cacheMap)).nodup cacheMap_paths_nodup
  · intro pa
    simp only [List.mem_map, List.mem_filter]
    constructor
    · rintro ⟨e, ⟨hmem, hc⟩, rfl⟩
      refine ⟨e.1, list_contains_iff.mp hc, ?_⟩
      exact cacheMapLookup_of_mem e hmem
    · rintro ⟨k, hk, hlk⟩
      exact ⟨(k, pa), ⟨mem_of_cacheMapLookup hlk, list_contains_iff.mpr hk⟩, rfl⟩

/-! ### Environment remapping (lemmas for C5) -/

theorem foldl_objAssign_eq (kf : String × String → String) :
    ∀ (l acc : List (String × String)),
      (l.map kf).Nodup →
      (∀ e ∈ l, acc.any (fun r => r.1 == kf e) = false) →
      l.foldl (fun res e => objAssign res (kf e) e.2) acc =
        acc ++ l.map (fun e => (kf e, e.2)) := by
  intro l
  induction l with
  | nil => intro acc _ _; simp
  | cons e l ih =>
    intro acc hnd hacc
    rw [List.map_cons, List.nodup_cons] at hnd
    rw [List.foldl_cons]
    have hnotin : acc.any (fun r => r.1 == kf e) = false :=
      hacc e (List.mem_cons_self e l)
    have hstep : objAssign acc (kf e) e.2 = acc ++ [(kf e, e.2)] := by
      rw [objAssign, if_neg (by simp [hnotin])]
    rw [hstep, ih (acc ++ [(kf e, e.2)]) hnd.2 ?_]
    · simp
    · intro e1 he1
      rw [List.any_append]
      have h1 : acc.any (fun r => r.1 == kf e1) = false :=
        hacc e1 (List.mem_cons_of_mem e he1)
      have hne : kf e ≠ kf e1 := by
        intro heq
        have h2 : kf e1 ∈ l.map kf := List.mem_map_of_mem kf he1
        rw [← heq] at h2
        exact hnd.1 h2
      simp [h1, hne]

theorem getCacheEnv_eq (env : List (String × String))
    (hnd : ((env.filter (fun e => strStarts e.1 "CACHE_")).map
      (fun e => "PLUGIN_" ++ strDrop e.1 6)).Nodup) :
    getCacheEnv env = (env.filter (fun e => strStarts e.1 "CACHE_")).map
      (fun e => ("PLUGIN_" ++ strDrop e.1 6, e.2)) := by
  rw [getCacheEnv]
  have h := foldl_objAssign_eq (fun e => "PLUGIN_" ++ strDrop e.1 6)
    (env.filter (fun e => strStarts e.1 "CACHE_")) [] hnd (fun e _ => rfl)
  simpa using h

/-- C5: for a plugin constructed from an environment whose remapped
`CACHE_`-keys are distinct (a JavaScript environment object always has
distinct keys), the environment attached to every generated step contains
exactly the entries whose original key begins with `CACHE_`, with that
prefix rewritten to `PLUGIN_` and the rest of the key and the value
unchanged; entries whose key does not begin with `CACHE_` never appear. -/
theorem c5_environment_remap (image cachePath : String)
    (env : List (String × String))
    (hnd : ((env.filter (fun e => strStarts e.1 "CACHE_")).map
      (fun e => "PLUGIN_" ++ strDrop e.1 6)).Nodup)
    (stepName : String) (whenField : Option String) (action : CacheAction)
    (caches : List String) :
    ∃ e, (createCacheStep (Plugin.construct image cachePath env)
        stepName whenField action caches).environment = some e ∧
      ∀ k v, ((k, v) ∈ e ↔ ∃ k0, (k0, v) ∈ env ∧
        strStarts k0 "CACHE_" = true ∧ k = "PLUGIN_" ++ strDrop k0 6) := by
  refine ⟨_, rfl, ?_⟩
  intro k v
  show (k, v) ∈ getCacheEnv env ↔ _
  rw [getCacheEnv_eq env hnd]
  simp only [List.mem_map, List.mem_filter]
  constructor
  · rintro ⟨⟨k0, v0⟩, ⟨hm, hst⟩, heq⟩
    injection heq with h1 h2
    subst h1
    subst h2
    exact ⟨k0, hm, hst, rfl⟩
  · rintro ⟨k0, hm, hst, rfl⟩
    exact ⟨(k0, v), ⟨hm, hst⟩, rfl⟩

/-- Witness for C5 at the environment `CACHE_FOO=bar` plus an unrelated
entry `OTHER=x`. -/
theorem c5_witness :
    ∃ e, (createCacheStep
        (Plugin.construct "foo" "/tmp/cache" [("CACHE_FOO", "bar"), ("OTHER", "x")])
        "build" none .restore ["npm"]).environment = some e ∧
      ∀ k v, ((k, v) ∈ e ↔ ∃ k0,
        (k0, v) ∈ [("CACHE_FOO", "bar"), ("OTHER", "x")] ∧
        strStarts k0 "CACHE_" = true ∧ k = "PLUGIN_" ++ strDrop k0 6) :=
  c5_environment_remap "foo" "/tmp/cache" [("CACHE_FOO", "bar"), ("OTHER", "x")]
    (by decide) "build" none .restore ["npm"]

/-! ### Ineligible steps and passthrough documents (C6, C7) -/

theorem flatMap_id_of_singleton {α : Type} (f : α → List α) :
    ∀ l : List α, (∀ s ∈ l, f s = [s]) → l.flatMap f = l := by
  intro l
  induction l with
  | nil => intro _; rfl
  | cons a l ih =>
    intro h
    rw [List.flatMap_cons, h a (List.mem_cons_self a l),
      ih (fun s hs => h s (List.mem_cons_of_mem a hs))]
    rfl

theorem docProcessorObj_all_ineligible (p : Plugin) (doc : Doc)
    (steps : List Step) (hk : doc.kind = some "pipeline")
    (hs : doc.steps = StepsField.arr steps)
    (hall : ∀ s ∈ steps, stepCacheSet s = []) :
    docProcessorObj p doc = .ok doc := by
  rw [docProcessorObj_arr p doc steps hk hs]
  have hlen : ¬ (usedCaches steps).length > 0 := by
    intro hpos
    rcases usedCaches_length_pos_iff.mp hpos with ⟨s, hsm, hne⟩
    exact hne (hall s hsm)
  rw [if_neg hlen]
  have hexp : steps.flatMap (stepExpansion p) = steps :=
    flatMap_id_of_singleton _ steps (fun s hsm => stepExpansion_of_nil (hall s hsm))
  rw [hexp]
  obtain ⟨k0, st0, v0, ex0⟩ := doc
  simp only at hs
  subst hs
  rfl

/-- C6: a step whose `caches` field is absent, or present but not
array-typed, or an array naming only unsupported kinds, is never an error:
the flatMap callback yields that step unchanged as a single-element result
without touching the `cachesUsed` state (unsupported kinds are filtered
silently), and a pipeline document all of whose steps are of this shape
keeps its step list — and hence its step count — unchanged. -/
theorem c6_ineligible_passthrough (p : Plugin) (step : Step)
    (h : step.caches = CachesField.absent ∨
      (∃ raw, step.caches = CachesField.notArray raw) ∨
      (∃ kinds, step.caches = CachesField.arr kinds ∧
        ∀ k ∈ kinds, cacheMapHas k = false)) :
    stepExpansion p step = [step] ∧
    (∀ acc, flatMapStep p acc step = (acc.1 ++ [step], acc.2)) ∧
    ∀ doc steps, doc.kind = some "pipeline" → doc.steps = StepsField.arr steps →
      (∀ s ∈ steps, stepCacheSet s = []) →
      docProcessorObj p doc = .ok doc := by
  have hnil : stepCacheSet step = [] := by
    rcases h with h | ⟨raw, h⟩ | ⟨kinds, h, hall⟩
    · simp [stepCacheSet, h]
    · simp [stepCacheSet, h]
    · have hfil : kinds.filter cacheMapHas = [] := by
        rw [List.filter_eq_nil_iff]
        intro a ha
        simp [hall a ha]
      simp [stepCacheSet, h, hfil, newSet]
  refine ⟨stepExpansion_of_nil hnil, ?_, ?_⟩
  · intro acc
    rw [flatMapStep_eq, stepExpansion_of_nil hnil, hnil]
    rfl
  · intro doc steps hk hs hall
    exact docProcessorObj_all_ineligible p doc steps hk hs hall

/-- Witness for C6 at a step with no `caches` field. -/
theorem c6_witness :
    stepExpansion examplePlugin { name := "bar" } = [{ name := "bar" }] ∧
    (∀ acc, flatMapStep examplePlugin acc { name := "bar" } =
      (acc.1 ++ [{ name := "bar" }], acc.2)) ∧
    ∀ doc steps, doc.kind = some "pipeline" → doc.steps = StepsField.arr steps →
      (∀ s ∈ steps, stepCacheSet s = []) →
      docProcessorObj examplePlugin doc = .ok doc :=
  c6_ineligible_passthrough examplePlugin { name := "bar" } (Or.inl rfl)

/-- C7: a document whose `kind` is not `pipeline` (including non-mapping
scalar documents, whose `kind` read gives `undefined`) and a pipeline
document with no `steps` field pass through the rewrite structurally
unchanged: no step expanded, no volume added, every field intact. -/
theorem c7_passthrough (p : Plugin) (d : Doc)
    (h : d.kind ≠ some "pipeline" ∨ d.steps = StepsField.absent) :
    docProcessorObj p d = .ok d ∧
    docProcessor p (.obj d) = .ok (.obj d) ∧
    ∀ s, docProcessor p (.scalar s) = .ok (.scalar s) := by
  refine ⟨docProcessorObj_passthrough p d h, ?_, fun s => rfl⟩
  show (docProcessorObj p d).map YamlDoc.obj = _
  rw [docProcessorObj_passthrough p d h]
  rfl

/-- Witness for C7 at a document of kind `foo`. -/
theorem c7_witness :
    docProcessorObj examplePlugin { kind := some "foo" } =
      .ok { kind := some "foo" } ∧
    docProcessor examplePlugin (.obj { kind := some "foo" }) =
      .ok (.obj { kind := some "foo" }) ∧
    ∀ s, docProcessor examplePlugin (.scalar s) = .ok (.scalar s) :=
  c7_passthrough examplePlugin { kind := some "foo" } (Or.inl (by decide))

/-! ### The document stream (C8, C9, C10) -/

theorem runDocs_cons (p : Plugin) (d : YamlDoc) (ds : List YamlDoc) :
    runDocs p (d :: ds) =
      match docProcessor p d with
      | .error e => .error e
      | .ok x =>
        match runDocs p ds with
        | .error e => .error e
        | .ok xs => .ok (x :: xs) := by
  simp only [runDocs]
  rw [List.mapM_cons]
  cases h1 : docProcessor p d with
  | error e => rfl
  | ok x =>
    cases h2 : ds.mapM (docProcessor p) with
    | error e => rfl
    | ok xs => rfl

theorem runDocs_id (p : Plugin) :
    ∀ docs : List YamlDoc, (∀ d ∈ docs, docProcessor p d = .ok d) →
      runDocs p docs = .ok docs := by
  intro docs
  induction docs with
  | nil => intro _; rfl
  | cons d ds ih =>
    intro h
    rw [runDocs_cons, h d (List.mem_cons_self d ds),
      ih (fun x hx => h x (List.mem_cons_of_mem d hx))]

theorem docProcessor_id (p : Plugin) (d : YamlDoc)
    (hnull : d ≠ YamlDoc.null)
    (hnarr : ∀ dd, d = YamlDoc.obj dd → dd.kind = some "pipeline" →
      ∀ raw, dd.steps ≠ StepsField.notArray raw)
    (hinel : ∀ dd, d = YamlDoc.obj dd → ∀ steps,
      dd.steps = StepsField.arr steps → ∀ s ∈ steps, stepCacheSet s = []) :
    docProcessor p d = .ok d := by
  cases d with
  | null => exact absurd rfl hnull
  | scalar s => rfl
  | obj dd =>
    show (docProcessorObj p dd).map YamlDoc.obj = _
    by_cases hk : dd.kind = some "pipeline"
    · cases hst : dd.steps with
      | absent => rw [docProcessorObj_passthrough p dd (Or.inr hst)]; rfl
      | notArray raw => exact absurd hst (hnarr dd rfl hk raw)
      | arr steps =>
        rw [docProcessorObj_all_ineligible p dd steps hk hst
          (hinel dd rfl steps hst)]
        rfl
    · rw [docProcessorObj_passthrough p dd (Or.inl hk)]
      rfl

/-- C8 counterexample: the parsed stream `[null]` contains no cache-eligible
step in any document, yet `run` throws a TypeError rather than returning
the stream rewritten unchanged. -/
theorem c8_counterexample :
    runDocs examplePlugin [YamlDoc.null] ≠ .ok [YamlDoc.null] ∧
    run examplePlugin (fun _ => "") [YamlDoc.null] =
      .error (.typeError "Cannot read properties of null (reading kind)") := by
  have h1 : runDocs examplePlugin [YamlDoc.null] =
      .error (.typeError "Cannot read properties of null (reading kind)") := rfl
  constructor
  · rw [h1]
    intro h
    exact Except.noConfusion h
  · rfl

/-- C8 (amended): for a parsed stream with no null document, no pipeline
document whose `steps` field is a non-array value, and no cache-eligible
step anywhere, processing returns exactly the input documents, so the
output of `run` is the plain re-serialization of the parsed input stream
(structural equality modulo serialization formatting). -/
theorem c8_amended_roundtrip (p : Plugin) (docs : List YamlDoc)
    (hnull : YamlDoc.null ∉ docs)
    (hnarr : ∀ dd, YamlDoc.obj dd ∈ docs → dd.kind = some "pipeline" →
      ∀ raw, dd.steps ≠ StepsField.notArray raw)
    (hinel : ∀ dd, YamlDoc.obj dd ∈ docs → ∀ steps,
      dd.steps = StepsField.arr steps → ∀ s ∈ steps, stepCacheSet s = []) :
    runDocs p docs = .ok docs ∧
    ∀ yamlDump, run p yamlDump docs =
      .ok (serializeStream (docs.map yamlDump)) := by
  have hmain : runDocs p docs = .ok docs := by
    apply runDocs_id
    intro d hd
    apply docProcessor_id
    · intro hdn
      rw [hdn] at hd
      exact hnull hd
    · intro dd hdd hk raw
      rw [hdd] at hd
      exact hnarr dd hd hk raw
    · intro dd hdd steps hst
      rw [hdd] at hd
      exact hinel dd hd steps hst
  refine ⟨hmain, fun yamlDump => ?_⟩
  rw [run, hmain]
  rfl

/-- Witness for the amended C8: a stream of a scalar document, a
non-pipeline mapping and a pipeline whose only step has no caches. -/
theorem c8_witness :
    runDocs examplePlugin
      [YamlDoc.scalar "x", YamlDoc.obj { kind := some "foo" },
       YamlDoc.obj { kind := some "pipeline",
                     steps := .arr [{ name := "bar" }] }] =
      .ok [YamlDoc.scalar "x", YamlDoc.obj { kind := some "foo" },
           YamlDoc.obj { kind := some "pipeline",
                         steps := .arr [{ name := "bar" }] }] ∧
    ∀ yamlDump, run examplePlugin yamlDump
      [YamlDoc.scalar "x", YamlDoc.obj { kind := some "foo" },
       YamlDoc.obj { kind := some "pipeline",
                     steps := .arr [{ name := "bar" }] }] =
      .ok (serializeStream
        ([YamlDoc.scalar "x", YamlDoc.obj { kind := some "foo" },
          YamlDoc.obj { kind := some "pipeline",
                        steps := .arr [{ name := "bar" }] }].map yamlDump)) :=
  c8_amended_roundtrip examplePlugin _
    (by decide)
    (by
      intro dd hdd hk raw
      rcases List.mem_cons.mp hdd with h1 | h1
      · exact absurd h1 (by simp)
      rcases List.mem_cons.mp h1 with h2 | h2
      · injection h2 with h3
        subst h3
        intro hcon
        simp at hcon
      rcases List.mem_cons.mp h2 with h4 | h4
      · injection h4 with h5
        subst h5
        intro hcon
        simp at hcon
      · exact absurd h4 (List.not_mem_nil _))
    (by
      intro dd hdd steps hst
      rcases List.mem_cons.mp hdd with h1 | h1
      · exact absurd h1 (by simp)
      rcases List.mem_cons.mp h1 with h2 | h2
      · injection h2 with h3
        subst h3
        exact absurd hst (by simp)
      rcases List.mem_cons.mp h2 with h4 | h4
      · injection h4 with h5
        subst h5
        injection hst with h6
        subst h6
        intro s hsm
        rcases List.mem_cons.mp hsm with h7 | h7
        · subst h7
          rfl
        · exact absurd h7 (List.not_mem_nil _)
      · exact absurd h4 (List.not_mem_nil _))

/-- C9: processing a document that parsed to `null` throws a TypeError from
reading the `kind` field of `null` (it is neither passed through nor a
ParseError), and the whole `run` therefore fails with a TypeError whenever
the parsed stream contains a null document. -/
theorem c9_null_throws (p : Plugin) :
    docProcessor p .null =
      .error (.typeError "Cannot read properties of null (reading kind)") ∧
    ∀ docs : List YamlDoc, YamlDoc.null ∈ docs →
      ∃ msg, runDocs p docs = .error (.typeError msg) := by
  refine ⟨rfl, ?_⟩
  intro docs
  induction docs with
  | nil => intro h; exact absurd h (List.not_mem_nil _)
  | cons d ds ih =>
    intro h
    rw [runDocs_cons]
    cases d with
    | null =>
      exact ⟨"Cannot read properties of null (reading kind)", rfl⟩
    | scalar s =>
      have hds : YamlDoc.null ∈ ds := by
        rcases List.mem_cons.mp h with h1 | h1
        · exact YamlDoc.noConfusion h1
        · exact h1
      rcases ih hds with ⟨msg, hmsg⟩
      rw [show docProcessor p (.scalar s) = .ok (.scalar s) from rfl, hmsg]
      exact ⟨msg, rfl⟩
    | obj dd =>
      have hds : YamlDoc.null ∈ ds := by
        rcases List.mem_cons.mp h with h1 | h1
        · exact YamlDoc.noConfusion h1
        · exact h1
      cases hobj : docProcessorObj p dd with
      | error e =>
        cases e with
        | typeError m =>
          rw [show docProcessor p (.obj dd) =
            (docProcessorObj p dd).map YamlDoc.obj from rfl, hobj]
          exact ⟨m, rfl⟩
      | ok dd2 =>
        rcases ih hds with ⟨msg, hmsg⟩
        rw [show docProcessor p (.obj dd) =
          (docProcessorObj p dd).map YamlDoc.obj from rfl, hobj, hmsg]
        exact ⟨msg, rfl⟩

/-- Witness for C9 at the one-document stream `[null]`. -/
theorem c9_witness :
    docProcessor examplePlugin .null =
      .error (.typeError "Cannot read properties of null (reading kind)") ∧
    ∃ msg, runDocs examplePlugin [YamlDoc.null] = .error (.typeError msg) :=
  ⟨(c9_null_throws examplePlugin).1,
   (c9_null_throws examplePlugin).2 [YamlDoc.null] (List.mem_singleton.mpr rfl)⟩

/-- C10: on the empty parsed stream `run` returns exactly the text
`---` plus newline; that text also equals the serialization of a
one-document stream whose single document body is empty — i.e. it reads
back as one (null) document, not as an empty stream. -/
theorem c10_empty_stream (p : Plugin) (yamlDump : YamlDoc → String) :
    run p yamlDump [] = .ok "---\n" ∧
    serializeStream [] = serializeStream [""] := by
  constructor
  · rfl
  · rfl
